import Mathlib

/-!
Verification of the numeric core of the voxel-engine repository.

This file is a shallow embedding, in Lean 4, of the fixed-point numeric
core of the repository:

* `voxel-maths/src/i48_int.rs` — the 48-bit signed integer `i48` stored
  in a 64-bit word with the two most significant bytes always zero;
* `voxel-maths/src/fixed_point.rs` — the `Fract` fractional unit
  (1/65536 resolution) and the `FixedPoint` packed decimal;
* `voxel-engine/src/game_state/coords.rs` — the chunk/offset coordinate
  hierarchy built on `i48`.

Machine integers are modelled as `Nat` (for the unsigned stored words)
and `Int` (for signed values), with two's-complement reinterpretation
written out explicitly.  Rust `u64` bit operations (`&`, `|`, `<<`, `>>`)
become `&&&`, `|||`, `<<<`, `>>>` on `Nat` with explicit `% 2^64`
truncation where the Rust operation truncates.  Rust `i64::div_euclid` /
`rem_euclid` become Lean's `/` / `%` on `Int` (Euclidean for a positive
divisor), and Rust's truncating `/` on `i64` becomes `Int.tdiv`.
Operations that can panic in Rust return `Option` (`none` = panic).
-/

set_option maxHeartbeats 1000000

namespace Voxel

/-- `x as u64` for an `i64` value `x`: two's-complement reinterpretation
of a signed 64-bit value as an unsigned 64-bit word. -/
def u64ofI64 (x : ℤ) : ℕ := (x % 18446744073709551616).toNat

/-- `x as i64` for a `u64` value `x`: two's-complement reinterpretation
of an unsigned 64-bit word as a signed 64-bit value. -/
def i64ofU64 (x : ℕ) : ℤ :=
  if x < 9223372036854775808 then (x : ℤ) else (x : ℤ) - 18446744073709551616

/-- `i64` two's-complement wraparound, the semantics of Rust's
`i64::wrapping_add` / `wrapping_mul` applied to an exact result. -/
def wrapI64 (x : ℤ) : ℤ :=
  (x + 9223372036854775808) % 18446744073709551616 - 9223372036854775808

/-- Rust `i64::saturating_add` / `saturating_sub` / `saturating_mul`
applied to the exact result: clamp to the `i64` range. -/
def satI64 (x : ℤ) : ℤ :=
  if 9223372036854775807 < x then 9223372036854775807
  else if x < -9223372036854775808 then -9223372036854775808
  else x

theorem satI64_range (x : ℤ) :
    -9223372036854775808 ≤ satI64 x ∧ satI64 x ≤ 9223372036854775807 := by
  unfold satI64
  split <;> [omega; (split <;> omega)]

theorem u64ofI64_lt (x : ℤ) : u64ofI64 x < 18446744073709551616 := by
  unfold u64ofI64
  omega

theorem i64ofU64_range (x : ℕ) (h : x < 18446744073709551616) :
    -9223372036854775808 ≤ i64ofU64 x ∧ i64ofU64 x ≤ 9223372036854775807 := by
  unfold i64ofU64
  split <;> omega

theorem u64ofI64_i64ofU64 (x : ℕ) (h : x < 18446744073709551616) :
    u64ofI64 (i64ofU64 x) = x := by
  unfold u64ofI64 i64ofU64
  split <;> omega

/-- `x &&& 0x0000_FFFF_FFFF_FFFF` is reduction modulo `2^48`
(`MASK = 0x0000_FFFF_FFFF_FFFF = 281474976710655`). -/
theorem and_mask_eq_mod (x : ℕ) :
    x &&& 281474976710655 = x % 281474976710656 := by
  have h := Nat.and_pow_two_sub_one_eq_mod x 48
  norm_num at h
  exact h

/-- The `i48` type of `i48_int.rs`: a 48-bit signed integer stored in a
64-bit word (`Repr`) whose two most significant bytes are always zero.
`bits` is the stored word; the invariant `bits < 2^48` is exactly
"the 16 most significant bits are zero". -/
structure i48 where
  bits : ℕ
  isLt : bits < 281474976710656

theorem i48.ext_bits {a b : i48} (h : a.bits = b.bits) : a = b := by
  cases a; cases b; simp_all

instance : DecidableEq i48 :=
  fun a b => decidable_of_iff (a.bits = b.bits) ⟨i48.ext_bits, fun h => by rw [h]⟩

namespace i48

/-- `Repr::to_bits` / `i48::to_bits`: the raw stored 64-bit word. -/
def toBits (v : i48) : ℕ := v.bits

/-- `Repr::from_bits_wrapping` / `i48::from_bits_wrapping`:
`from_bits_unchecked(x & MASK)`. -/
def fromBitsWrapping (x : ℕ) : i48 :=
  ⟨x &&& 281474976710655, by rw [and_mask_eq_mod]; omega⟩

/-- `Repr::from_bits` / `i48::from_bits`: `None` when `x > MASK`
(the bit-magic range test), otherwise the bits unchanged
(`from_bits_unchecked`). -/
def fromBits (x : ℕ) : Option i48 :=
  if h : 281474976710655 < x then none else some ⟨x, by omega⟩

/-- `Repr::as_i64`: `((self.to_bits() << 16) as i64) >> 16` — the
sign-extending left-shift-then-arithmetic-right-shift.  The `u64` left
shift truncates modulo `2^64`; the arithmetic right shift of an `i64` by
16 is floor division by `2^16`, which for a positive divisor is Lean's
`Int` division. -/
def asI64 (v : i48) : ℤ :=
  i64ofU64 ((v.toBits <<< 16) % 18446744073709551616) / 65536

/-- `i48::new_wrapping`: `from_bits_wrapping(x as u64)`. -/
def newWrapping (x : ℤ) : i48 := fromBitsWrapping (u64ofI64 x)

/-- `i48::new`: range validation against `MAX = 2^47 - 1` and
`MIN = -2^47`, then `new_unchecked`, which (after the compiler hint)
is `new_wrapping`. -/
def new (x : ℤ) : Option i48 :=
  if 140737488355327 < x ∨ x < -140737488355328 then none
  else some (newWrapping x)

/-- `i48::MAX = i48!(MAX)`, i.e. `new(2^47 - 1).unwrap()`, whose value
is `new_wrapping(2^47 - 1)`. -/
def maxVal : i48 := newWrapping 140737488355327

/-- `i48::MIN = i48!(MIN)`, i.e. `new(-2^47).unwrap()`, whose value is
`new_wrapping(-2^47)`. -/
def minVal : i48 := newWrapping (-140737488355328)

/-- `i48::wrapping_add` (release semantics):
`new_wrapping(self.as_i64().wrapping_add(rhs.as_i64()))`. -/
def wrappingAdd (a b : i48) : i48 := newWrapping (wrapI64 (a.asI64 + b.asI64))

/-- `i48::wrapping_mul` (release semantics):
`new_wrapping(self.as_i64().wrapping_mul(rhs.as_i64()))`. -/
def wrappingMul (a b : i48) : i48 := newWrapping (wrapI64 (a.asI64 * b.asI64))

/-- `i64::checked_div`: `None` exactly on division by zero and on the
single overflowing case `i64::MIN / -1`; otherwise Rust's truncating
division. -/
def checkedDivI64 (x y : ℤ) : Option ℤ :=
  if y = 0 ∨ (x = -9223372036854775808 ∧ y = -1) then none
  else some (Int.tdiv x y)

/-- `i48::checked_div`: `self.as_i64().checked_div(rhs.as_i64())`
re-validated through `i48::new`. -/
def checkedDiv (a b : i48) : Option i48 :=
  match checkedDivI64 a.asI64 b.asI64 with
  | some q => new q
  | none => none

/-- The exact (untruncated) value of the internal `u64` computation
`(!self.to_bits()) + 1` inside `i48::wrapping_neg`: `!x` on `u64` is
`2^64 - 1 - x`, and then `1` is added with a plain (overflow-checked in
debug builds) `+`. -/
def wrappingNegSum (v : i48) : ℕ := (18446744073709551615 - v.toBits) + 1

/-- `i48::wrapping_neg` with release semantics: the `u64` addition
`(!bits) + 1` wraps modulo `2^64` and the result is re-masked by
`from_bits_wrapping`. -/
def wrappingNeg (v : i48) : i48 :=
  fromBitsWrapping (wrappingNegSum v % 18446744073709551616)

/-- `i48::wrapping_neg` with debug (overflow-checked) semantics: the
`u64` addition `(!bits) + 1` panics (`none`) when it exceeds `u64::MAX`,
otherwise behaves as in release. -/
def wrappingNegChecked (v : i48) : Option i48 :=
  if wrappingNegSum v < 18446744073709551616 then
    some (fromBitsWrapping (wrappingNegSum v))
  else none

theorem fromBitsWrapping_bits (x : ℕ) :
    (fromBitsWrapping x).bits = x % 281474976710656 := by
  unfold fromBitsWrapping
  simpa using and_mask_eq_mod x

theorem asI64_eq (v : i48) :
    v.asI64 = if v.bits < 140737488355328 then (v.bits : ℤ)
              else (v.bits : ℤ) - 281474976710656 := by
  have hb := v.isLt
  unfold asI64 toBits i64ofU64
  rw [Nat.shiftLeft_eq]
  norm_num
  split <;> split <;> omega

theorem asI64_range (v : i48) :
    -140737488355328 ≤ v.asI64 ∧ v.asI64 ≤ 140737488355327 := by
  have hb := v.isLt
  rw [asI64_eq]
  split <;> omega

theorem newWrapping_bits (x : ℤ) :
    (newWrapping x).bits =
      (x % 18446744073709551616).toNat % 281474976710656 := by
  unfold newWrapping u64ofI64
  rw [fromBitsWrapping_bits]

theorem newWrapping_asI64 (x : ℤ) :
    (newWrapping x).asI64 =
      (x + 140737488355328) % 281474976710656 - 140737488355328 := by
  rw [asI64_eq, newWrapping_bits]
  split <;> omega

theorem newWrapping_asI64_self (x : ℤ) (h1 : -140737488355328 ≤ x)
    (h2 : x ≤ 140737488355327) : (newWrapping x).asI64 = x := by
  rw [newWrapping_asI64]
  omega

theorem newWrapping_asI64_cancel (v : i48) : newWrapping v.asI64 = v := by
  apply ext_bits
  have hb := v.isLt
  rw [newWrapping_bits]
  rw [asI64_eq]
  split <;> omega

theorem newWrapping_wrapI64 (x : ℤ) :
    newWrapping (wrapI64 x) = newWrapping x := by
  apply ext_bits
  rw [newWrapping_bits, newWrapping_bits]
  unfold wrapI64
  omega

end i48

/-- C1.  `i48::new` accepts exactly the `i64` inputs in
`[-2^47, 2^47 - 1]`, and on acceptance `as_i64` reads the value back
unchanged; outside that range `new` returns `None`. -/
theorem i48_new_some_iff_roundtrip (x : ℤ) (h1 : -9223372036854775808 ≤ x)
    (h2 : x ≤ 9223372036854775807) :
    ((i48.new x).isSome ↔ (-140737488355328 ≤ x ∧ x ≤ 140737488355327))
  ∧ (∀ v : i48, i48.new x = some v → v.asI64 = x) := by
  unfold i48.new
  constructor
  · split <;> simp_all <;> omega
  · intro v hv
    split at hv
    · exact absurd hv (by simp)
    · cases hv
      exact i48.newWrapping_asI64_self x (by omega) (by omega)

/-- Witness for C1 at the concrete input `x = 42`. -/
theorem i48_new_some_iff_roundtrip_witness :
    (((i48.new 42).isSome ↔
        (-140737488355328 ≤ (42 : ℤ) ∧ (42 : ℤ) ≤ 140737488355327))
  ∧ (∀ v : i48, i48.new 42 = some v → v.asI64 = 42)) :=
  i48_new_some_iff_roundtrip 42 (by norm_num) (by norm_num)

/-- C2.  Every `i48` value keeps the two most significant bytes of the
stored 64-bit word zero: `to_bits() ≤ 0x0000_FFFF_FFFF_FFFF`.  In this
embedding the bound is the type invariant carried by every constructor
(`fromBitsWrapping`, `fromBits`, `new`, `newWrapping`, `wrappingAdd`,
`wrappingMul`, `wrappingNeg`, …), so it holds for every reachable
value. -/
theorem i48_bits_invariant : ∀ v : i48, v.toBits ≤ 281474976710655 := by
  intro v
  have := v.isLt
  unfold i48.toBits
  omega

/-- C3.  `i48::new_wrapping` always succeeds, returning the value
congruent to the input modulo `2^48` that lies in `[-2^47, 2^47 - 1]`;
in particular `new_wrapping(MAX + 1) = MIN` and
`new_wrapping(MIN - 1) = MAX`. -/
theorem i48_newWrapping_mod (x : ℤ) (h1 : -9223372036854775808 ≤ x)
    (h2 : x ≤ 9223372036854775807) :
    ((i48.newWrapping x).asI64 - x) % 281474976710656 = 0
  ∧ -140737488355328 ≤ (i48.newWrapping x).asI64
  ∧ (i48.newWrapping x).asI64 ≤ 140737488355327
  ∧ i48.newWrapping 140737488355328 = i48.minVal
  ∧ i48.newWrapping (-140737488355329) = i48.maxVal := by
  refine ⟨?_, ?_, ?_, by decide, by decide⟩ <;> rw [i48.newWrapping_asI64] <;> omega

/-- Witness for C3 at the concrete input `x = 2^48 + 5` (which wraps
to `5`). -/
theorem i48_newWrapping_mod_witness :
    ((i48.newWrapping 281474976710661).asI64 - 281474976710661) % 281474976710656 = 0
  ∧ -140737488355328 ≤ (i48.newWrapping 281474976710661).asI64
  ∧ (i48.newWrapping 281474976710661).asI64 ≤ 140737488355327
  ∧ i48.newWrapping 140737488355328 = i48.minVal
  ∧ i48.newWrapping (-140737488355329) = i48.maxVal :=
  i48_newWrapping_mod 281474976710661 (by norm_num) (by norm_num)

/-- C4 (code bug).  The internal computation `(!self.to_bits()) + 1` of
`i48::wrapping_neg` overflows `u64` exactly at the value `0`: under
overflow checks (debug builds, const evaluation) `wrapping_neg(0)`
panics (`wrappingNegChecked = none`), contradicting the contract that
wrapping arithmetic never fails.  With release (wrapping) semantics the
function does satisfy the claim at the critical points:
`wrapping_neg(0) = 0` and `wrapping_neg(MIN) = MIN`. -/
theorem i48_wrappingNeg_zero_overflows :
    i48.wrappingNegChecked (i48.newWrapping 0) = none
  ∧ (∀ v : i48, i48.wrappingNegChecked v = none ↔ v.toBits = 0)
  ∧ i48.wrappingNeg (i48.newWrapping 0) = i48.newWrapping 0
  ∧ i48.wrappingNeg i48.minVal = i48.minVal := by
  refine ⟨by decide, ?_, by decide, by decide⟩
  intro v
  have hb := v.isLt
  unfold i48.wrappingNegChecked i48.wrappingNegSum i48.toBits
  split <;> simp <;> omega

/-! ### `voxel-maths/src/fixed_point.rs` -/

/-- `Fract` from fixed_point.rs: an unsigned 16-bit magnitude
interpreted as `val / 65536`, confined to `[0, 1)`. -/
structure Fract where
  val : ℕ
  isLt : val < 65536

theorem Fract.ext_val {a b : Fract} (h : a.val = b.val) : a = b := by
  cases a; cases b; simp_all

instance : DecidableEq Fract :=
  fun a b => decidable_of_iff (a.val = b.val) ⟨Fract.ext_val, fun h => by rw [h]⟩

/-- `Fract::recip`: `(FRACTIONAL_SCALE / x as u32) as u16` for `x > 1`
(the `assert!(x > 1)` is carried as a hypothesis). -/
def Fract.recip (x : ℕ) (h : 1 < x) : Fract :=
  ⟨65536 / x, Nat.div_lt_self (by norm_num) h⟩

/-- `Fract::HALF = Fract::recip(2)`. -/
def Fract.half : Fract := Fract.recip 2 (by norm_num)

/-- `FixedPoint` from fixed_point.rs: a signed value `raw / 65536`
stored as a two's-complement 64-bit word (`i64`). -/
structure FixedPoint where
  raw : ℤ
  range : -9223372036854775808 ≤ raw ∧ raw ≤ 9223372036854775807

theorem FixedPoint.ext_raw {a b : FixedPoint} (h : a.raw = b.raw) : a = b := by
  cases a; cases b; simp_all

instance : DecidableEq FixedPoint :=
  fun a b => decidable_of_iff (a.raw = b.raw) ⟨FixedPoint.ext_raw, fun h => by rw [h]⟩

namespace FixedPoint

/-- `FixedPoint::from_raw`:
`((integer.to_bits() << 16) | fractional.0 as u64) as i64`. -/
def fromRaw (integer : i48) (fractional : Fract) : FixedPoint :=
  ⟨i64ofU64 (((integer.toBits <<< 16) % 18446744073709551616) ||| fractional.val),
   by
    apply i64ofU64_range
    have h1 : (integer.toBits <<< 16) % 18446744073709551616 < 2 ^ 64 :=
      Nat.mod_lt _ (by norm_num)
    have h2 : fractional.val < 2 ^ 64 := by
      have := fractional.isLt
      norm_num
      omega
    have := Nat.or_lt_two_pow h1 h2
    norm_num at this
    omega⟩

/-- `FixedPoint::from_int`: `((int.to_bits() << 16) as i64)`. -/
def fromInt (int : i48) : FixedPoint :=
  ⟨i64ofU64 ((int.toBits <<< 16) % 18446744073709551616),
   i64ofU64_range _ (Nat.mod_lt _ (by norm_num))⟩

/-- `FixedPoint::from_fract`: zero-extends the 16-bit fraction. -/
def fromFract (fractional : Fract) : FixedPoint :=
  ⟨(fractional.val : ℤ), by have := fractional.isLt; omega⟩

/-- `FixedPoint::int`: `i48::from_bits_unchecked((self.0 as u64) >> 16)`
— the `u64` right shift guarantees the top 16 bits are zero. -/
def int (v : FixedPoint) : i48 :=
  ⟨u64ofI64 v.raw >>> 16, by
    have h := u64ofI64_lt v.raw
    rw [Nat.shiftRight_eq_div_pow]
    norm_num
    omega⟩

/-- `FixedPoint::fract`: `Fract(self.0 as u16)` — truncation to the low
16 bits. -/
def fract (v : FixedPoint) : Fract :=
  ⟨u64ofI64 v.raw % 65536, Nat.mod_lt _ (by norm_num)⟩

/-- `FixedPoint::to_raw`: `(self.int(), self.fract())`. -/
def toRaw (v : FixedPoint) : i48 × Fract := (v.int, v.fract)

/-- `impl Add for FixedPoint`: `Self(self.0.saturating_add(rhs.0))`. -/
def add (a b : FixedPoint) : FixedPoint :=
  ⟨satI64 (a.raw + b.raw), satI64_range _⟩

/-- `impl Sub for FixedPoint`: `Self(self.0.saturating_sub(rhs.0))`. -/
def sub (a b : FixedPoint) : FixedPoint :=
  ⟨satI64 (a.raw - b.raw), satI64_range _⟩

/-- `impl Div for FixedPoint`:
`FixedPoint((x / y).saturating_mul(FRACTIONAL_SCALE as i64))`.
The raw `i64` division panics (`none`) on a zero divisor and on the
overflowing case `i64::MIN / -1`; otherwise it truncates toward zero
(`Int.tdiv`) and the quotient is rescaled by 65536 with saturation. -/
def div (a b : FixedPoint) : Option FixedPoint :=
  if b.raw = 0 then none
  else if a.raw = -9223372036854775808 ∧ b.raw = -1 then none
  else some ⟨satI64 (Int.tdiv a.raw b.raw * 65536), satI64_range _⟩

end FixedPoint

/-- `impl Div for Fract`:
`FixedPoint((self.0 / rhs.0) as i64 * FRACTIONAL_SCALE as i64)`.
The `u16` division panics (`none`) on a zero divisor; the rescaling
multiply can never overflow. -/
def Fract.div (a b : Fract) : Option FixedPoint :=
  if b.val = 0 then none
  else some ⟨((a.val / b.val : ℕ) : ℤ) * 65536, by
    have h1 : a.val / b.val ≤ 65535 :=
      le_trans (Nat.div_le_self _ _) (by have := a.isLt; omega)
    have h3 : ((a.val / b.val : ℕ) : ℤ) ≤ 65535 := by exact_mod_cast h1
    have h4 : (0 : ℤ) ≤ ((a.val / b.val : ℕ) : ℤ) := Int.natCast_nonneg _
    constructor <;> linarith⟩

/-- C5.  `FixedPoint` addition and subtraction are the saturating
addition/subtraction of the raw 64-bit words: the result is the exact
sum/difference clamped to the `i64` range, and never leaves
`[MIN, MAX]`. -/
theorem fixedPoint_addSub_saturating (a b : FixedPoint) :
    (a.add b).raw = min (max (a.raw + b.raw) (-9223372036854775808)) 9223372036854775807
  ∧ (a.sub b).raw = min (max (a.raw - b.raw) (-9223372036854775808)) 9223372036854775807
  ∧ -9223372036854775808 ≤ (a.add b).raw ∧ (a.add b).raw ≤ 9223372036854775807
  ∧ -9223372036854775808 ≤ (a.sub b).raw ∧ (a.sub b).raw ≤ 9223372036854775807 := by
  unfold FixedPoint.add FixedPoint.sub satI64
  refine ⟨?_, ?_, ?_⟩ <;> simp only [] <;> split <;> try split
  all_goals omega

/-- C8.  `FixedPoint::from_int(2) / FixedPoint::from_fract(HALF)`
is exactly `FixedPoint::from_int(4)` under the raw-word division
policy. -/
theorem fixedPoint_div_two_by_half :
    FixedPoint.div (FixedPoint.fromInt (i48.newWrapping 2))
        (FixedPoint.fromFract Fract.half)
      = some (FixedPoint.fromInt (i48.newWrapping 4)) := by decide

theorem fromRaw_raw (integer : i48) (fractional : Fract) :
    (FixedPoint.fromRaw integer fractional).raw
      = i64ofU64 (((integer.toBits <<< 16) % 18446744073709551616)
          ||| fractional.val) := rfl

/-- The packed word of `from_raw` is the arithmetic combination
`bits * 2^16 + fractional`: the `|` has disjoint operands. -/
theorem fromRaw_word_eq (integer : i48) (fractional : Fract) :
    ((integer.toBits <<< 16) % 18446744073709551616) ||| fractional.val
      = integer.bits * 65536 + fractional.val := by
  have hi := integer.isLt
  unfold i48.toBits
  rw [Nat.shiftLeft_eq]
  have hmod : integer.bits * 2 ^ 16 % 18446744073709551616 = integer.bits * 2 ^ 16 := by
    apply Nat.mod_eq_of_lt
    norm_num
    omega
  rw [hmod]
  have hb : fractional.val < 2 ^ 16 := by have := fractional.isLt; norm_num; omega
  have hor := Nat.mul_add_lt_is_or hb integer.bits
  rw [Nat.mul_comm integer.bits (2 ^ 16), ← hor]
  norm_num
  omega

/-- C9.  Packing an `i48` integer part and a `Fract` fractional part
with `from_raw` and unpacking with `to_raw` is the identity. -/
theorem fixedPoint_fromRaw_toRaw (integer : i48) (fractional : Fract) :
    (FixedPoint.fromRaw integer fractional).toRaw = (integer, fractional) := by
  have hi := integer.isLt
  have hf := fractional.isLt
  have hcancel : u64ofI64 (FixedPoint.fromRaw integer fractional).raw
      = integer.bits * 65536 + fractional.val := by
    rw [fromRaw_raw, fromRaw_word_eq]
    exact u64ofI64_i64ofU64 _ (by omega)
  unfold FixedPoint.toRaw
  have h1 : (FixedPoint.fromRaw integer fractional).int = integer := by
    apply i48.ext_bits
    show u64ofI64 (FixedPoint.fromRaw integer fractional).raw >>> 16 = integer.bits
    rw [hcancel, Nat.shiftRight_eq_div_pow]
    norm_num
    omega
  have h2 : (FixedPoint.fromRaw integer fractional).fract = fractional := by
    apply Fract.ext_val
    show u64ofI64 (FixedPoint.fromRaw integer fractional).raw % 65536 = fractional.val
    rw [hcancel]
    omega
  rw [h1, h2]

/-- C10.  The raw-word divisions have unguarded panic branches:
`FixedPoint` division panics exactly on a zero divisor or on
`MIN / (raw word -1)`, and `Fract` division panics exactly on a zero
divisor — there is no checked or saturating path, in contrast to
`i48::checked_div`, which returns `None` on a zero divisor. -/
theorem fixedPoint_div_panics :
    (∀ a b : FixedPoint,
      FixedPoint.div a b = none
        ↔ (b.raw = 0 ∨ (a.raw = -9223372036854775808 ∧ b.raw = -1)))
  ∧ (∀ f g : Fract, Fract.div f g = none ↔ g.val = 0)
  ∧ (∀ a b : i48, b.asI64 = 0 → i48.checkedDiv a b = none) := by
  refine ⟨?_, ?_, ?_⟩
  · intro a b
    unfold FixedPoint.div
    split
    · simp_all
    · split <;> simp_all
  · intro f g
    unfold Fract.div
    split <;> simp_all
  · intro a b hb
    unfold i48.checkedDiv i48.checkedDivI64
    rw [hb]
    simp

/-- Witness for C10's `checked_div` clause at the concrete input
`10 / 0`. -/
theorem fixedPoint_div_panics_witness :
    i48.checkedDiv (i48.newWrapping 10) (i48.newWrapping 0) = none :=
  fixedPoint_div_panics.2.2 (i48.newWrapping 10) (i48.newWrapping 0) (by decide)

/-! ### `voxel-engine/src/game_state/coords.rs` -/

/-- `ChunkCoord` from coords.rs: a pair of `i32` chunk indices. -/
structure ChunkCoord where
  x : ℤ
  z : ℤ
  xRange : -2147483648 ≤ x ∧ x ≤ 2147483647
  zRange : -2147483648 ≤ z ∧ z ≤ 2147483647

/-- `i48::from(i32)` (`lossless_signed_from!`): `new_unchecked(value as
i64)`, and `new_unchecked` is `new_wrapping` after the compiler hint. -/
def i48ofI32 (x : ℤ) : i48 := i48.newWrapping x

/-- `i48::from(u8)` (`lossless_unsigned_from!`):
`from_bits_unchecked(value as u64)` — the bits unchanged. -/
def i48ofU8 (n : ℕ) (h : n < 281474976710656) : i48 := ⟨n, h⟩

/-- `ChunkCoord::x`: `i48::from(self.x) * i48!(16)` — the release `Mul`
is `wrapping_mul` (on an `i32` chunk index it can never overflow, so
debug `checked_mul` agrees). -/
def ChunkCoord.xWorld (c : ChunkCoord) : i48 :=
  i48.wrappingMul (i48ofI32 c.x) (i48.newWrapping 16)

/-- `ChunkCoord::z`: `i48::from(self.z) * i48!(16)`. -/
def ChunkCoord.zWorld (c : ChunkCoord) : i48 :=
  i48.wrappingMul (i48ofI32 c.z) (i48.newWrapping 16)

/-- `ChunkRelativeXZ` from coords.rs: two 4-bit offsets packed into one
byte, x in the high nibble, z in the low nibble. -/
structure ChunkRelativeXZ where
  xz : ℕ
  isLt : xz < 256

/-- `ChunkRelativeXZ::from_xz`: `(x << 4) | z` on `u8` (the `u8` shift
truncates modulo 256); the `debug_assert!(x < 16 && z < 16)` is carried
as hypotheses. -/
def ChunkRelativeXZ.fromXZ (x z : ℕ) (hx : x < 16) (hz : z < 16) : ChunkRelativeXZ :=
  ⟨((x <<< 4) % 256) ||| z, by
    have h1 : (x <<< 4) % 256 < 2 ^ 8 := by
      have := Nat.mod_lt (x <<< 4) (show 0 < 256 by norm_num)
      norm_num
      omega
    have h2 : z < 2 ^ 8 := by norm_num; omega
    have := Nat.or_lt_two_pow h1 h2
    norm_num at this
    omega⟩

/-- `ChunkRelativeXZ::x`: `self.xz >> 4`. -/
def ChunkRelativeXZ.xOff (c : ChunkRelativeXZ) : ℕ := c.xz >>> 4

/-- `ChunkRelativeXZ::z`: `self.xz & ((1 << 4) - 1)`. -/
def ChunkRelativeXZ.zOff (c : ChunkRelativeXZ) : ℕ := c.xz &&& ((1 <<< 4) - 1)

/-- `BlockCoord` from coords.rs: a packed in-chunk offset plus a byte
height. -/
structure BlockCoord where
  xz : ChunkRelativeXZ
  y : ℕ
  yLt : y < 256

/-- `BlockCoord::from_xyz`. -/
def BlockCoord.fromXYZ (x y z : ℕ) (hx : x < 16) (hy : y < 256) (hz : z < 16) :
    BlockCoord :=
  ⟨ChunkRelativeXZ.fromXZ x z hx hz, y, hy⟩

/-- `AbsoluteBlockCoord` from coords.rs (the spec's
GlobalBlockCoordinate): chunk indices plus in-chunk block offset. -/
structure AbsoluteBlockCoord where
  chunk : ChunkCoord
  blockCoord : BlockCoord

/-- `separate` in `AbsoluteBlockCoord::from_xyz`: Euclidean
decomposition `(num.div_euclid(16), num.rem_euclid(16) as u8)` with the
chunk index saturated to the `i32` range and the offset pinned to the
corresponding boundary (15 or 0).  Rust's `div_euclid`/`rem_euclid` by
the positive divisor 16 are Lean's `Int` `/` and `%`. -/
def separate (coord : i48) : ℤ × ℕ :=
  let num := coord.asI64
  let chunk := num / 16
  let rel := (num % 16).toNat
  if 2147483647 < chunk then (2147483647, 15)
  else if chunk < -2147483648 then (-2147483648, 0)
  else (chunk, rel)

theorem separate_fst_range (v : i48) :
    -2147483648 ≤ (separate v).1 ∧ (separate v).1 ≤ 2147483647 := by
  unfold separate
  dsimp only
  split_ifs <;> simp <;> omega

theorem separate_snd_lt (v : i48) : (separate v).2 < 16 := by
  unfold separate
  dsimp only
  split_ifs <;> simp <;> omega

/-- `AbsoluteBlockCoord::from_xyz`: separate each horizontal axis
independently, pack the remainders with the height byte. -/
def AbsoluteBlockCoord.fromXYZ (x : i48) (y : ℕ) (z : i48) (hy : y < 256) :
    AbsoluteBlockCoord :=
  { chunk := ⟨(separate x).1, (separate z).1, separate_fst_range x, separate_fst_range z⟩
    blockCoord := BlockCoord.fromXYZ (separate x).2 y (separate z).2
      (separate_snd_lt x) hy (separate_snd_lt z) }

theorem blockX_lt (b : BlockCoord) : b.xz.xOff < 281474976710656 := by
  have h := b.xz.isLt
  unfold ChunkRelativeXZ.xOff
  rw [Nat.shiftRight_eq_div_pow]
  have := Nat.div_le_self b.xz.xz (2 ^ 4)
  omega

theorem blockZ_lt (b : BlockCoord) : b.xz.zOff < 281474976710656 := by
  unfold ChunkRelativeXZ.zOff
  have := Nat.and_le_right (n := b.xz.xz) (m := (1 <<< 4) - 1)
  omega

/-- `AbsoluteBlockCoord::x`:
`self.chunk.x() + i48::from(self.block_coord.x())` — the release `Add`
is `wrapping_add`. -/
def AbsoluteBlockCoord.xCoord (c : AbsoluteBlockCoord) : i48 :=
  i48.wrappingAdd c.chunk.xWorld (i48ofU8 c.blockCoord.xz.xOff (blockX_lt c.blockCoord))

/-- `AbsoluteBlockCoord::z`:
`self.chunk.z() + i48::from(self.block_coord.z())`. -/
def AbsoluteBlockCoord.zCoord (c : AbsoluteBlockCoord) : i48 :=
  i48.wrappingAdd c.chunk.zWorld (i48ofU8 c.blockCoord.xz.zOff (blockZ_lt c.blockCoord))

/-- `AbsoluteBlockCoord::y`. -/
def AbsoluteBlockCoord.yCoord (c : AbsoluteBlockCoord) : ℕ := c.blockCoord.y

/-- `AbsoluteBlockCoord::xyz`: `(self.x(), self.y(), self.z())`. -/
def AbsoluteBlockCoord.xyz (c : AbsoluteBlockCoord) : i48 × ℕ × i48 :=
  (c.xCoord, c.yCoord, c.zCoord)

theorem fromXZ_word (x z : ℕ) (hx : x < 16) (hz : z < 16) :
    (ChunkRelativeXZ.fromXZ x z hx hz).xz = x * 16 + z := by
  show ((x <<< 4) % 256) ||| z = x * 16 + z
  rw [Nat.shiftLeft_eq]
  have hmod : x * 2 ^ 4 % 256 = x * 2 ^ 4 := Nat.mod_eq_of_lt (by norm_num; omega)
  rw [hmod]
  have hb : z < 2 ^ 4 := by norm_num; omega
  have hor := Nat.mul_add_lt_is_or hb x
  rw [Nat.mul_comm x (2 ^ 4), ← hor]
  omega

theorem fromXZ_xOff (x z : ℕ) (hx : x < 16) (hz : z < 16) :
    (ChunkRelativeXZ.fromXZ x z hx hz).xOff = x := by
  unfold ChunkRelativeXZ.xOff
  rw [fromXZ_word x z hx hz, Nat.shiftRight_eq_div_pow]
  norm_num
  omega

theorem fromXZ_zOff (x z : ℕ) (hx : x < 16) (hz : z < 16) :
    (ChunkRelativeXZ.fromXZ x z hx hz).zOff = z := by
  unfold ChunkRelativeXZ.zOff
  rw [fromXZ_word x z hx hz]
  have h15 : ((1 <<< 4) - 1 : ℕ) = 2 ^ 4 - 1 := by decide
  rw [h15, Nat.and_pow_two_sub_one_eq_mod]
  omega

theorem separate_eq (v : i48) (h1 : -2147483648 ≤ v.asI64 / 16)
    (h2 : v.asI64 / 16 ≤ 2147483647) :
    separate v = (v.asI64 / 16, (v.asI64 % 16).toNat) := by
  unfold separate
  dsimp only
  rw [if_neg (by omega), if_neg (by omega)]

/-- Reconstruction of one horizontal axis: multiplying the (in-range)
chunk index back by 16 and adding the in-chunk remainder recovers the
original `i48` coordinate. -/
theorem reconstructAxis (v : i48) (r : ℕ) (hlt : r < 281474976710656)
    (hr : (r : ℤ) = v.asI64 % 16) (h1 : -2147483648 ≤ v.asI64 / 16)
    (h2 : v.asI64 / 16 ≤ 2147483647) (q : ℤ) (hq : q = v.asI64 / 16) :
    i48.wrappingAdd (i48.wrappingMul (i48ofI32 q) (i48.newWrapping 16))
      (i48ofU8 r hlt) = v := by
  subst hq
  have hv := i48.asI64_range v
  have e1 : (i48ofI32 (v.asI64 / 16)).asI64 = v.asI64 / 16 := by
    unfold i48ofI32
    exact i48.newWrapping_asI64_self _ (by omega) (by omega)
  have e16 : (i48.newWrapping 16).asI64 = 16 := by decide
  have emul : i48.wrappingMul (i48ofI32 (v.asI64 / 16)) (i48.newWrapping 16)
      = i48.newWrapping (v.asI64 / 16 * 16) := by
    unfold i48.wrappingMul
    rw [e1, e16, i48.newWrapping_wrapI64]
  have emul2 : (i48.newWrapping (v.asI64 / 16 * 16)).asI64 = v.asI64 / 16 * 16 :=
    i48.newWrapping_asI64_self _ (by omega) (by omega)
  have er : (i48ofU8 r hlt).asI64 = (r : ℤ) := by
    rw [i48.asI64_eq]
    have hb : (i48ofU8 r hlt).bits = r := rfl
    rw [hb, if_pos (by omega)]
  rw [emul]
  unfold i48.wrappingAdd
  rw [emul2, er, i48.newWrapping_wrapI64]
  have hsum : v.asI64 / 16 * 16 + (r : ℤ) = v.asI64 := by omega
  rw [hsum, i48.newWrapping_asI64_cancel]

/-- C6.  For coordinates whose chunk index (floor-quotient by 16) fits
in an `i32`, and any height byte, `from_xyz` followed by `xyz` is the
identity: the Euclidean decomposition `chunk = ⌊v/16⌋`,
`offset = v mod 16` recombines as `chunk * 16 + offset = v` on each
axis. -/
theorem absoluteBlockCoord_roundtrip (x z : i48) (y : ℕ) (hy : y < 256)
    (hx1 : -2147483648 ≤ x.asI64 / 16) (hx2 : x.asI64 / 16 ≤ 2147483647)
    (hz1 : -2147483648 ≤ z.asI64 / 16) (hz2 : z.asI64 / 16 ≤ 2147483647) :
    (AbsoluteBlockCoord.fromXYZ x y z hy).xyz = (x, y, z) := by
  have hsx := separate_eq x hx1 hx2
  have hsz := separate_eq z hz1 hz2
  simp only [AbsoluteBlockCoord.xyz, AbsoluteBlockCoord.xCoord,
    AbsoluteBlockCoord.zCoord, AbsoluteBlockCoord.yCoord,
    AbsoluteBlockCoord.fromXYZ, BlockCoord.fromXYZ, ChunkCoord.xWorld,
    ChunkCoord.zWorld, Prod.mk.injEq]
  refine ⟨?_, trivial, ?_⟩
  · apply reconstructAxis x
    · rw [fromXZ_xOff, hsx]
      have : 0 ≤ x.asI64 % 16 := by omega
      omega
    · exact hx1
    · exact hx2
    · rw [hsx]
  · apply reconstructAxis z
    · rw [fromXZ_zOff, hsz]
      have : 0 ≤ z.asI64 % 16 := by omega
      omega
    · exact hz1
    · exact hz2
    · rw [hsz]

/-- Witness for C6 at the concrete input `(x, y, z) = (100, 7, -50)`. -/
theorem absoluteBlockCoord_roundtrip_witness :
    (AbsoluteBlockCoord.fromXYZ (i48.newWrapping 100) 7
        (i48.newWrapping (-50)) (by norm_num)).xyz
      = (i48.newWrapping 100, 7, i48.newWrapping (-50)) :=
  absoluteBlockCoord_roundtrip (i48.newWrapping 100) (i48.newWrapping (-50)) 7
    (by norm_num) (by decide) (by decide) (by decide) (by decide)

/-- C7.  When the chunk index `⌊v/16⌋` exceeds the `i32` range,
`from_xyz` saturates that axis: above `i32::MAX` it yields
`(i32::MAX, offset 15)`, below `i32::MIN` it yields `(i32::MIN,
offset 0)`; the construction is total (no panic, no wraparound) and
each axis is separated independently. -/
theorem separate_saturates (v : i48) :
    (2147483647 < v.asI64 / 16 → separate v = (2147483647, 15))
  ∧ (v.asI64 / 16 < -2147483648 → separate v = (-2147483648, 0))
  ∧ (∀ (z : i48) (y : ℕ) (hy : y < 256),
      (AbsoluteBlockCoord.fromXYZ v y z hy).chunk.x = (separate v).1
    ∧ (AbsoluteBlockCoord.fromXYZ v y z hy).chunk.z = (separate z).1) := by
  refine ⟨?_, ?_, ?_⟩
  · intro h
    unfold separate
    dsimp only
    rw [if_pos h]
  · intro h
    unfold separate
    dsimp only
    rw [if_neg (by omega), if_pos h]
  · intro z y hy
    exact ⟨rfl, rfl⟩

/-- Witness for C7: `i48::MAX` saturates high, `i48::MIN` saturates
low. -/
theorem separate_saturates_witness :
    separate (i48.newWrapping 140737488355327) = (2147483647, 15)
  ∧ separate (i48.newWrapping (-140737488355328)) = (-2147483648, 0) :=
  ⟨(separate_saturates (i48.newWrapping 140737488355327)).1 (by decide),
   (separate_saturates (i48.newWrapping (-140737488355328))).2.1 (by decide)⟩
